import Mathlib

/-!
Verification of the sshm SFTP browser core (`src/tui/app_sftp.rs`, `src/sftp/fs.rs`).

Rust strings are embedded as Lean `String`s; where the Rust code iterates over
the characters of a string (searching, escaping, lowercasing, parsing), the
embedding works on the underlying `List Char` with structurally recursive
functions so that every definition is executable by the kernel.

Machine integers (`u64`, `usize`) are embedded as `Nat`; the places where the
source uses `saturating_add` / `saturating_mul` are modelled with an explicit
cap at `2 ^ 64 - 1`.
-/

namespace Sshm

/-- The single-quote character, written via its code point. -/
def squote : Char := Char.ofNat 39

/-- The backslash character. -/
def bslash : Char := Char.ofNat 92

/-- The dot character. -/
def dotChar : Char := Char.ofNat 46

/-- The forward-slash character. -/
def slashChar : Char := Char.ofNat 47

/-- One step of the Rust `path.replace("'", "'\\''")`: a single quote expands to
close-quote, escaped quote, reopen-quote; every other character is kept. -/
def escChar (c : Char) : List Char :=
  if c = squote then [squote, bslash, squote, squote] else [c]

/-- `shell_escape` from `app_sftp.rs` lines 166-175: the empty path becomes a pair
of single quotes; otherwise the path is wrapped in single quotes with each
embedded single quote replaced by the close/escape/reopen sequence. -/
def shell_escape (path : String) : String :=
  if path.data = [] then
    ⟨[squote, squote]⟩
  else
    ⟨squote :: (path.data.flatMap escChar ++ [squote])⟩

/-- Inverse of the body expansion performed by `shell_escape`: reads back the
characters between the outer quotes, undoing the quote-escape sequence. -/
def unescBody : List Char → Option (List Char)
  | [] => some []
  | c :: rest =>
    if c = squote then
      match rest with
      | b :: q1 :: q2 :: rest2 =>
        if b = bslash ∧ q1 = squote ∧ q2 = squote then
          (unescBody rest2).map (fun l => squote :: l)
        else
          none
      | _ => none
    else
      (unescBody rest).map (fun l => c :: l)

/-- Full inverse of `shell_escape`: strips the outer single quotes and undoes
the escape sequences; `none` on any string not of the escaped shape. -/
def shellUnescape (s : String) : Option String :=
  match s.data with
  | [] => none
  | c :: rest =>
    if c = squote ∧ rest.getLast? = some squote then
      (unescBody rest.dropLast).map (fun l => ⟨l⟩)
    else
      none

/-- `FileEntry` from `app_sftp.rs` lines 22-26. -/
structure FileEntry where
  name : String
  is_dir : Bool
deriving DecidableEq, Repr

/-- Rust `to_lowercase`, character by character. -/
def toLowerL (l : List Char) : List Char := l.map Char.toLower

/-- Lexicographic less-or-equal on character sequences, matching Rust string
comparison (lexicographic over the characters in scalar-value order). -/
def lexLe : List Char → List Char → Bool
  | [], _ => true
  | _ :: _, [] => false
  | a :: as, b :: bs => if a = b then lexLe as bs else decide (a < b)

/-- The comparator of `entries.sort_by` in `read_local_dir` (`sftp/fs.rs` lines
20-26, duplicated in `app_sftp.rs` lines 104-110) and in `ssh_list_remote_dir`
(`app_sftp.rs` lines 155-161), read as less-or-equal: directories sort before
files, and within each group names compare case-insensitively. -/
def entryLe (a b : FileEntry) : Bool :=
  match a.is_dir, b.is_dir with
  | true, false => true
  | false, true => false
  | _, _ => lexLe (toLowerL a.name.data) (toLowerL b.name.data)

/-- The `entries.sort_by(...)` call shared by `read_local_dir` and
`ssh_list_remote_dir`. -/
def sortEntries (l : List FileEntry) : List FileEntry := l.mergeSort entryLe

/-- `read_local_dir` (`sftp/fs.rs` lines 4-28): the raw directory entries as
produced by the OS are sorted with the directories-first comparator. -/
def read_local_dir (raw : List FileEntry) : List FileEntry := sortEntries raw

/-- Outcome of running the external transport command: either the process
invocation itself failed with an I/O error (the `cmd.output()?` path), or the
process ran and reported an exit status plus its standard output. -/
inductive TransportResult where
  | err (msg : String)
  | exit (success : Bool) (stdout : String)
deriving DecidableEq, Repr

/-- One line of `ls -p -1` output as parsed by `ssh_list_remote_dir`
(`app_sftp.rs` lines 143-153): trim whitespace, skip empties, a trailing slash
marks a directory and is stripped from the name. -/
def parseRemoteLine (line : List Char) : Option FileEntry :=
  let t := (line.dropWhile Char.isWhitespace).reverse.dropWhile Char.isWhitespace |>.reverse
  if t = [] then none
  else if t.getLast? = some slashChar then
    some ⟨⟨(t.reverse.dropWhile (fun c => c = slashChar)).reverse⟩, true⟩
  else
    some ⟨⟨t⟩, false⟩

/-- Split a character sequence at newline characters, modelling Rust
`str::lines` for the purposes of `ssh_list_remote_dir` (each piece is then
trimmed anyway, which also removes any carriage return). -/
def splitLines (l : List Char) : List (List Char) :=
  match l with
  | [] => [[]]
  | c :: rest =>
    let r := splitLines rest
    if c = Char.ofNat 10 then
      [] :: r
    else
      match r with
      | [] => [[c]]
      | h :: t => (c :: h) :: t

/-- `ssh_list_remote_dir` (`app_sftp.rs` lines 114-164) as a function of the
transport outcome for its `ls` invocation: an I/O error from `cmd.output()` is
propagated by `?`; a non-zero exit yields `Ok` with an empty list; a successful
exit parses stdout line by line and sorts the entries. -/
def ssh_list_remote_dir (tr : TransportResult) : Except String (List FileEntry) :=
  match tr with
  | .err e => .error e
  | .exit false _ => .ok []
  | .exit true out => .ok (sortEntries ((splitLines out.data).filterMap parseRemoteLine))

/-- The remote command string built by `ssh_list_remote_dir` (line 132). -/
def ls_remote_cmd (remote_path : String) : String :=
  "LC_ALL=C ls -p -1 -- " ++ shell_escape remote_path

/-- The remote command string built by `ssh_remote_file_size` (lines 220-223). -/
def stat_remote_cmd (remote_path : String) : String :=
  "LC_ALL=C stat -c %s -- " ++ shell_escape remote_path ++
    " 2>/dev/null || stat -f %z -- " ++ shell_escape remote_path ++ " 2>/dev/null"

/-- The remote command string built by `ssh_mkdir_remote` (line 298). -/
def mkdir_remote_cmd (remote_dir : String) : String :=
  "mkdir -p " ++ shell_escape remote_dir

/-- The `user@host:path` argument built by `download_remote_file`, the `scp`
`get` call (line 264). -/
def scp_download_remote_spec (user host remote_path : String) : String :=
  user ++ "@" ++ host ++ ":" ++ remote_path

/-- The `user@host:path` argument built by `upload_local_file`, the `scp`
`put` call (line 331). -/
def scp_upload_remote_spec (user host remote_target : String) : String :=
  user ++ "@" ++ host ++ ":" ++ remote_target

/-- The base part of the `file_name.find(dot)` split of `unique_local_path`
(`sftp/fs.rs` lines 33-38): the characters before the first dot (the whole
name when there is no dot). -/
def splitBase (file_name : String) : String :=
  ⟨file_name.data.takeWhile (fun c => ¬ (c = dotChar))⟩

/-- The suffix part of the same split: the characters from the first dot on
(empty when there is no dot). -/
def splitSuffix (file_name : String) : String :=
  ⟨file_name.data.dropWhile (fun c => ¬ (c = dotChar))⟩

/-- The probe loop of `unique_local_path` (`sftp/fs.rs` lines 45-53): try
`base (n)suffix` for n = 1, 2, … until a name not present in the directory is
found. The filesystem is modelled by the list `present` of names existing in
the target directory; the unbounded Rust `loop` carries an explicit fuel and
returns `none` when the fuel runs out. -/
def probeLoop (present : List String) (base suffix : String) : Nat → Nat → Option String
  | 0, _ => none
  | fuel + 1, n =>
    let name := base ++ " (" ++ toString n ++ ")" ++ suffix
    if name ∈ present then probeLoop present base suffix fuel (n + 1) else some name

/-- `unique_local_path` (`sftp/fs.rs` lines 31-54, duplicated in `app_sftp.rs`
lines 384-407): split the file name at its first dot, return it unchanged if
unused, otherwise run the probe loop starting at 1. -/
def unique_local_path (present : List String) (fuel : Nat) (file_name : String) : Option String :=
  let base := splitBase file_name
  let suffix := splitSuffix file_name
  let candidate := base ++ suffix
  if candidate ∈ present then probeLoop present base suffix fuel 1 else some candidate

/-- The n-th candidate name probed by `unique_local_path`: the plain
base-plus-suffix for n = 0, the numbered variant for n ≥ 1. -/
def candName (file_name : String) : Nat → String
  | 0 => splitBase file_name ++ splitSuffix file_name
  | n + 1 => splitBase file_name ++ " (" ++ toString (n + 1) ++ ")" ++ splitSuffix file_name

/-- Whether `needle` occurs as a prefix of `hay`. -/
def isPrefixL (needle hay : List Char) : Bool :=
  match needle, hay with
  | [], _ => true
  | _ :: _, [] => false
  | a :: as, b :: bs => a = b && isPrefixL as bs

/-- Whether `needle` occurs as a contiguous subsequence of `hay`, modelling
Rust `str::contains` with a string pattern. -/
def containsL (needle : List Char) : List Char → Bool
  | [] => isPrefixL needle []
  | c :: t => isPrefixL needle (c :: t) || containsL needle t

/-- `apply_filter` (`app_sftp.rs` lines 1439-1445): the empty filter returns
the entries unchanged; otherwise keep the entries whose lowercased name
contains the lowercased filter string. -/
def apply_filter (entries : List FileEntry) (filter : String) : List FileEntry :=
  if filter.data = [] then entries
  else entries.filter (fun e => containsL (toLowerL filter.data) (toLowerL e.name.data))

/-- Largest value of a `u64`. -/
def U64MAX : Nat := 2 ^ 64 - 1

/-- `u64::saturating_add`. -/
def satAdd (a b : Nat) : Nat := min (a + b) U64MAX

/-- `u64::saturating_mul`. -/
def satMul (a b : Nat) : Nat := min (a * b) U64MAX

/-- The percentage shown for the most recent active single-file download
(`app_sftp.rs` lines 824-825), drawn only when `total > 0`: the sampled local
file size is clamped to the probed total, then `current * 100 / total` with a
saturating multiplication. -/
def download_bar_percentage (current_size total : Nat) : Nat :=
  let current := min current_size total
  satMul current 100 / total

/-- The percentage shown for folder-download progress (`app_sftp.rs` lines
851-853) and for upload progress (lines 871-873): a zero total is replaced by
1, done bytes are clamped to the total, then `current * 100 / total`. -/
def progress_bar_percentage (done_bytes total_bytes : Nat) : Nat :=
  let total := if 0 < total_bytes then total_bytes else 1
  let current := min done_bytes total
  satMul current 100 / total

/-- `MAX_PARALLEL_DOWNLOADS` (`app_sftp.rs` line 503). -/
def MAX_PARALLEL_DOWNLOADS : Nat := 3

/-- The download-manager state owned by the UI loop: `active` models
`active_downloads` (a job per spawned worker thread, identified by its id) and
`pending` models the `pending_downloads` FIFO (`VecDeque`, pushed at the back,
popped at the front). -/
structure PoolState where
  active : List Nat
  pending : List Nat
deriving DecidableEq, Repr

/-- State before any download is requested (`app_sftp.rs` lines 501-502). -/
def initialPool : PoolState := ⟨[], []⟩

/-- Draining `Completed` events (`app_sftp.rs` line 583): each completion
retains from `active_downloads` the jobs with a different id. -/
def drainCompleted (completed : List Nat) (active : List Nat) : List Nat :=
  completed.foldl (fun acc cid => acc.filter (fun jid => ¬ (jid = cid))) active

/-- The promotion loop (`app_sftp.rs` lines 632-667): while the active set is
below `maxP`, pop the front of the pending queue and start it. -/
def promote (maxP : Nat) : List Nat → List Nat → List Nat × List Nat
  | active, [] => (active, [])
  | active, j :: rest =>
    if active.length < maxP then promote maxP (active ++ [j]) rest
    else (active, j :: rest)

/-- One iteration of the UI loop as it affects the pool: drain the completion
events, promote queued jobs, then append the jobs enqueued by the key handler
(`pending_downloads.push_back`, line 1281). -/
def poolTick (completed newJobs : List Nat) (s : PoolState) : PoolState :=
  let a := drainCompleted completed s.active
  let (a2, p2) := promote MAX_PARALLEL_DOWNLOADS a s.pending
  ⟨a2, p2 ++ newJobs⟩

/-- Run the UI loop over a trace of (completions, new enqueues) pairs. -/
def runPool (s : PoolState) : List (List Nat × List Nat) → PoolState
  | [] => s
  | (c, n) :: rest => runPool (poolTick c n s) rest

/-- `DownloadEvent` (`app_sftp.rs` lines 438-453), with the payload reduced to
the fields the folder-download worker varies: a `Progress` carries the
files-done / files-total / bytes-done / bytes-total counters, a `Completed`
carries whether its `result` was `Ok`. -/
inductive DlEvent where
  | progress (files_done files_total : Nat) (done_bytes total_bytes : Nat)
  | completed (ok : Bool)
deriving DecidableEq, Repr

/-- Recognizer for `DlEvent.completed`. -/
def DlEvent.isCompleted : DlEvent → Bool
  | .completed _ => true
  | _ => false

/-- The (files_done, done_bytes) view of a `Progress` event. -/
def DlEvent.progView : DlEvent → Option (Nat × Nat)
  | .progress fd _ db _ => some (fd, db)
  | .completed _ => none

/-- The per-file transfer loop of the folder-download worker (`app_sftp.rs`
lines 1356-1419): each file is a (size, transfer-succeeded) pair; a success
bumps the counters (bytes with `saturating_add`) and emits a `Progress`; the
first failure emits `Completed(Err)` and returns; falling off the end emits
`Completed(Ok)`. -/
def folderDlLoop (files_total total_bytes : Nat) :
    List (Nat × Bool) → Nat → Nat → List DlEvent
  | [], _, _ => [.completed true]
  | (size, ok) :: rest, done_files, done_bytes =>
    if ok then
      .progress (done_files + 1) files_total (satAdd done_bytes size) total_bytes ::
        folderDlLoop files_total total_bytes rest (done_files + 1) (satAdd done_bytes size)
    else
      [.completed false]

/-- The full event sequence of one folder-download worker (`app_sftp.rs` lines
1297-1420): after the scan it emits a `Progress` with zero counters, then
either a single `Completed(Err)` when `create_dir_all` on the local root fails
(lines 1346-1354), or the per-file loop. -/
def folderDownloadEvents (mkdirOk : Bool) (files : List (Nat × Bool)) : List DlEvent :=
  let files_total := files.length
  let total_bytes := (files.map (fun f => f.1)).sum
  .progress 0 files_total 0 total_bytes ::
    (if mkdirOk then folderDlLoop files_total total_bytes files 0 0 else [.completed false])

/-- `SftpEvent` (`app_sftp.rs` lines 464-476), the only events an upload worker
can send: a progress report, or a completion notice that carries nothing but
the file name — there is no error payload. -/
inductive UlEvent where
  | uploadProgress (label : String) (files_done files_total : Nat) (done_bytes total_bytes : Nat)
  | uploadCompleted (file_name : String)
deriving DecidableEq, Repr

/-- Recognizer for `UlEvent.uploadCompleted`. -/
def UlEvent.isCompleted : UlEvent → Bool
  | .uploadCompleted _ => true
  | _ => false

/-- Recognizer for `UlEvent.uploadProgress`. -/
def UlEvent.isProgress : UlEvent → Bool
  | .uploadProgress _ _ _ _ _ => true
  | _ => false

/-- One file of a folder-upload job: its size, whether the `mkdir -p` for its
parent directory succeeded, and whether the `scp` upload succeeded. -/
structure UlFile where
  size : Nat
  mkdirParentOk : Bool
  uploadOk : Bool
deriving DecidableEq, Repr

/-- The per-file loop of the folder-upload worker (`app_sftp.rs` lines
1196-1223): the per-parent `ssh_mkdir_remote` result is discarded with
`let _ =` (line 1200) and so never influences control flow; a successful
upload bumps the counters and emits a progress event; a failed upload breaks
out of the loop. -/
def uploadFolderLoop (label : String) (files_total total_bytes : Nat) :
    List UlFile → Nat → Nat → List UlEvent
  | [], _, _ => []
  | f :: rest, done_files, done_bytes =>
    if f.uploadOk then
      .uploadProgress label (done_files + 1) files_total (satAdd done_bytes f.size) total_bytes ::
        uploadFolderLoop label files_total total_bytes rest
          (done_files + 1) (satAdd done_bytes f.size)
    else
      []

/-- The full event sequence of one folder-upload worker (`app_sftp.rs` lines
1161-1225): the root `ssh_mkdir_remote` result is discarded with `let _ =`
(line 1194), the files are processed by the loop, and an `UploadCompleted`
carrying only the folder name is sent unconditionally at the end (line 1225). -/
def uploadFolderEvents (name : String) (mkdirRootOk : Bool) (files : List UlFile) : List UlEvent :=
  let files_total := files.length
  let total_bytes := (files.map UlFile.size).sum
  let _ := mkdirRootOk
  uploadFolderLoop ("Folder: " ++ name) files_total total_bytes files 0 0 ++
    [.uploadCompleted name]

/-- `PanelState` (`app_sftp.rs` lines 40-44), restricted to the fields the
selection invariant concerns. -/
structure Panel where
  entries : List FileEntry
  selected : Nat
deriving DecidableEq, Repr

/-- Selection invariant claimed by the spec: the index is in range whenever
the entry list is non-empty. -/
def Panel.selInRange (p : Panel) : Prop :=
  p.entries ≠ [] → p.selected < p.entries.length

/-- The `Up` key (`app_sftp.rs` lines 992-1000). -/
def keyUp (p : Panel) : Panel :=
  if 0 < p.selected then { p with selected := p.selected - 1 } else p

/-- The `Down` key (`app_sftp.rs` lines 1001-1009). -/
def keyDown (p : Panel) : Panel :=
  if p.entries = [] then p
  else { p with selected := min (p.selected + 1) (p.entries.length - 1) }

/-- Navigation and filter-editing refreshes (`Enter`, `Backspace`, `Esc` in
filter mode, filter keystrokes, upload-completion refresh): the entry list is
replaced and the selection is reset to 0 (e.g. `app_sftp.rs` lines 1041, 954,
916, 925, 963, 1083, 1113, 1132, 554). -/
def navigateSet (l : List FileEntry) (p : Panel) : Panel :=
  { p with entries := l, selected := 0 }

/-- The local-panel refresh performed when a single-file download completes
(`app_sftp.rs` lines 586-600): the entry list is replaced but `selected` is
left untouched. -/
def downloadRefresh (l : List FileEntry) (p : Panel) : Panel :=
  { p with entries := l }

/-- The index handed to the renderer (`app_sftp.rs` lines 715-718 and
757-761): `None` for an empty list, otherwise `selected` clamped with
`min (len - 1)`. -/
def renderIndex (p : Panel) : Option Nat :=
  if p.entries = [] then none else some (min p.selected (p.entries.length - 1))

/-- The ordering claimed for listings: no file ever precedes a directory, and
two entries of the same kind are in case-insensitive name order. -/
def dirsFirstSorted (l : List FileEntry) : Prop :=
  l.Pairwise (fun a b =>
    (b.is_dir = true → a.is_dir = true) ∧
      (a.is_dir = b.is_dir → lexLe (toLowerL a.name.data) (toLowerL b.name.data) = true))

/-- Componentwise order on the (files_done, done_bytes) view of progress
events. -/
def dlMono (x y : Nat × Nat) : Prop := x.1 ≤ y.1 ∧ x.2 ≤ y.2

theorem unescBody_escChar (l : List Char) :
    unescBody (l.flatMap escChar) = some l := by
  induction l with
  | nil => rfl
  | cons c t ih =>
    rw [List.flatMap_cons]
    by_cases hc : c = squote
    · subst hc
      rw [show escChar squote = [squote, bslash, squote, squote] from if_pos rfl]
      simp [unescBody, ih]
    · rw [show escChar c = [c] from if_neg hc]
      show unescBody (c :: t.flatMap escChar) = some (c :: t)
      unfold unescBody
      rw [if_neg hc, ih]
      rfl

theorem shellUnescape_shell_escape (p : String) :
    shellUnescape (shell_escape p) = some p := by
  obtain ⟨l⟩ := p
  cases l with
  | nil => rfl
  | cons c t =>
    have hne : (String.mk (c :: t)).data ≠ [] := by simp
    have hlast : ((c :: t).flatMap escChar ++ [squote]).getLast? = some squote := by
      simp [List.getLast?_append]
    have hdrop : ((c :: t).flatMap escChar ++ [squote]).dropLast = (c :: t).flatMap escChar := by
      simp
    rw [shell_escape, if_neg hne]
    show shellUnescape ⟨squote :: ((c :: t).flatMap escChar ++ [squote])⟩ = _
    unfold shellUnescape
    show (if squote = squote ∧ ((c :: t).flatMap escChar ++ [squote]).getLast? = some squote then
        Option.map (fun l => String.mk l) (unescBody ((c :: t).flatMap escChar ++ [squote]).dropLast)
      else none) = some ⟨c :: t⟩
    rw [if_pos ⟨rfl, hlast⟩, hdrop, unescBody_escChar]
    rfl

/-- C2 counterexample: when the transport invocation itself fails with an I/O
error (`cmd.output()` returning `Err`, e.g. the `ssh` binary cannot be
spawned), `ssh_list_remote_dir` does not return an empty sequence — the `?`
operator propagates the error to the caller. -/
theorem ssh_list_remote_dir_err_not_empty :
    ssh_list_remote_dir (TransportResult.err "spawn failure") ≠ Except.ok [] :=
  fun h => nomatch h

/-- C2 (amended): a non-zero exit of the listing command yields `Ok` with an
empty sequence whatever the command printed, but an I/O error from invoking
the transport is propagated as an error to the caller. -/
theorem ssh_list_remote_dir_error_behavior :
    (∀ out : String, ssh_list_remote_dir (TransportResult.exit false out) = Except.ok []) ∧
      ∀ msg : String, ssh_list_remote_dir (TransportResult.err msg) = Except.error msg :=
  ⟨fun _ => rfl, fun _ => rfl⟩

/-- C5 counterexample: the `scp` get invocation (`download_remote_file`) embeds
the remote path into its `user@host:path` argument without shell-escaping it —
for the path `a b` the argument contains the raw path, not the single-quoted
form `shell_escape` would produce. -/
theorem scp_get_spec_not_escaped :
    scp_download_remote_spec "user" "host" "a b" = "user@host:a b" ∧
      scp_download_remote_spec "user" "host" "a b" ≠ "user@host:" ++ shell_escape "a b" := by
  constructor
  · decide
  · decide

/-- C5 (amended): the list, stat and mkdirParents invocations all pass the
remote path through `shell_escape` (which is injective: `shellUnescape`
recovers the path), but the get and put invocations (`scp`) embed the raw,
unescaped remote path in their `user@host:path` argument. -/
theorem remote_path_escaping (p user host : String) :
    ls_remote_cmd p = "LC_ALL=C ls -p -1 -- " ++ shell_escape p ∧
    stat_remote_cmd p = "LC_ALL=C stat -c %s -- " ++ shell_escape p ++
      " 2>/dev/null || stat -f %z -- " ++ shell_escape p ++ " 2>/dev/null" ∧
    mkdir_remote_cmd p = "mkdir -p " ++ shell_escape p ∧
    shellUnescape (shell_escape p) = some p ∧
    scp_download_remote_spec user host p = user ++ "@" ++ host ++ ":" ++ p ∧
    scp_upload_remote_spec user host p = user ++ "@" ++ host ++ ":" ++ p :=
  ⟨rfl, rfl, rfl, shellUnescape_shell_escape p, rfl, rfl⟩

theorem satMul_hundred_div_le (cur tot : Nat) (h : cur ≤ tot) (ht : 0 < tot) :
    satMul cur 100 / tot ≤ 100 := by
  have h1 : satMul cur 100 ≤ 100 * tot := by
    calc satMul cur 100 ≤ cur * 100 := min_le_left _ _
      _ ≤ tot * 100 := Nat.mul_le_mul_right _ h
      _ = 100 * tot := Nat.mul_comm _ _
  calc satMul cur 100 / tot ≤ 100 * tot / tot := Nat.div_le_div_right h1
    _ = 100 := Nat.mul_div_cancel _ ht

/-- C9: every rendered progress percentage is at most 100 (being a `Nat`, it is
at least 0): the active-download bar (drawn only when the probed total is
positive) clamps the sampled size to the total before dividing, and the
folder-download and upload bars clamp done bytes to the (positive-ised) total,
so even `done_bytes > total_bytes` renders at most 100. -/
theorem rendered_percentage_in_range (current_size total done_bytes total_bytes : Nat) :
    (0 < total → download_bar_percentage current_size total ≤ 100) ∧
      progress_bar_percentage done_bytes total_bytes ≤ 100 := by
  constructor
  · intro ht
    exact satMul_hundred_div_le _ _ (min_le_right _ _) ht
  · unfold progress_bar_percentage
    by_cases h : 0 < total_bytes
    · rw [if_pos h]
      exact satMul_hundred_div_le _ _ (min_le_right _ _) h
    · rw [if_neg h]
      exact satMul_hundred_div_le _ _ (min_le_right _ _) Nat.one_pos

/-- C9 witness: a stale progress event reporting 250 of 100 bytes for a
single-file download, and 150 of 100 bytes for a folder/upload bar, both
render as at most 100 percent. -/
theorem rendered_percentage_in_range_witness :
    download_bar_percentage 250 100 ≤ 100 ∧ progress_bar_percentage 150 100 ≤ 100 :=
  ⟨(rendered_percentage_in_range 250 100 150 100).1 (by decide),
    (rendered_percentage_in_range 250 100 150 100).2⟩

theorem isPrefixL_iff (needle hay : List Char) :
    isPrefixL needle hay = true ↔ ∃ r, hay = needle ++ r := by
  induction needle generalizing hay with
  | nil => simp [isPrefixL]
  | cons a as ih =>
    cases hay with
    | nil =>
      simp [isPrefixL]
    | cons b bs =>
      rw [show isPrefixL (a :: as) (b :: bs) = (decide (a = b) && isPrefixL as bs) from rfl]
      simp only [Bool.and_eq_true, decide_eq_true_eq, ih]
      constructor
      · rintro ⟨hab, r, hr⟩
        exact ⟨r, by rw [hab, hr]; rfl⟩
      · rintro ⟨r, hr⟩
        rw [List.cons_append] at hr
        injection hr with h1 h2
        exact ⟨h1.symm, r, h2⟩

theorem containsL_iff (needle hay : List Char) :
    containsL needle hay = true ↔ ∃ l r, hay = l ++ needle ++ r := by
  induction hay with
  | nil =>
    show isPrefixL needle [] = true ↔ _
    rw [isPrefixL_iff]
    constructor
    · rintro ⟨r, hr⟩
      exact ⟨[], r, by simpa using hr⟩
    · rintro ⟨l, r, hr⟩
      have h := List.append_eq_nil.mp hr.symm
      have h2 := List.append_eq_nil.mp h.1
      exact ⟨r, by rw [h2.2, h.2]; rfl⟩
  | cons c t ih =>
    show (isPrefixL needle (c :: t) || containsL needle t) = true ↔ _
    rw [Bool.or_eq_true, isPrefixL_iff, ih]
    constructor
    · rintro (⟨r, hr⟩ | ⟨l, r, hr⟩)
      · exact ⟨[], r, by simpa using hr⟩
      · exact ⟨c :: l, r, by simp [hr]⟩
    · rintro ⟨l, r, hr⟩
      cases l with
      | nil =>
        left
        exact ⟨r, by simpa using hr⟩
      | cons x xs =>
        right
        rw [List.cons_append, List.cons_append] at hr
        injection hr with h1 h2
        exact ⟨xs, r, by simp [h2]⟩

/-- C10: `apply_filter` keeps exactly the entries whose lowercased name
contains the lowercased filter string as a contiguous substring, in their
original relative order (the result is a sublist of the input), and the empty
filter returns the input unchanged. -/
theorem apply_filter_exact (entries : List FileEntry) (f : String) :
    (apply_filter entries f).Sublist entries ∧
      (∀ e, e ∈ apply_filter entries f ↔
        e ∈ entries ∧ ∃ l r, toLowerL e.name.data = l ++ toLowerL f.data ++ r) ∧
      (f.data = [] → apply_filter entries f = entries) := by
  by_cases hf : f.data = []
  · rw [show apply_filter entries f = entries from by rw [apply_filter, if_pos hf]]
    refine ⟨List.Sublist.refl entries, ?_, fun _ => rfl⟩
    intro e
    constructor
    · intro he
      exact ⟨he, toLowerL e.name.data, [], by simp [hf, toLowerL]⟩
    · exact fun h => h.1
  · rw [show apply_filter entries f =
        entries.filter (fun e => containsL (toLowerL f.data) (toLowerL e.name.data)) from
      by rw [apply_filter, if_neg hf]]
    refine ⟨List.filter_sublist entries, ?_, fun h => absurd h hf⟩
    intro e
    rw [List.mem_filter, containsL_iff]

/-- C10 witness: filtering a one-entry panel with the empty filter string
leaves the listing unchanged. -/
theorem apply_filter_exact_witness :
    apply_filter [⟨"Notes", false⟩] "" = [⟨"Notes", false⟩] :=
  (apply_filter_exact [⟨"Notes", false⟩] "").2.2 rfl

theorem promote_eq (maxP : Nat) (p a : List Nat) :
    promote maxP a p =
      (a ++ p.take (maxP - a.length), p.drop (maxP - a.length)) := by
  induction p generalizing a with
  | nil => simp [promote]
  | cons j rest ih =>
    show (if a.length < maxP then promote maxP (a ++ [j]) rest else (a, j :: rest)) = _
    by_cases h : a.length < maxP
    · rw [if_pos h, ih]
      have h1 : maxP - a.length = (maxP - (a.length + 1)) + 1 := by omega
      rw [h1, List.take_succ_cons, List.drop_succ_cons]
      simp
    · rw [if_neg h]
      have h0 : maxP - a.length = 0 := by omega
      rw [h0]
      simp

theorem promote_active_le (maxP : Nat) (a p : List Nat) (h : a.length ≤ maxP) :
    (promote maxP a p).1.length ≤ maxP := by
  rw [promote_eq]
  simp only [List.length_append, List.length_take]
  omega

theorem drainCompleted_length_le (completed active : List Nat) :
    (drainCompleted completed active).length ≤ active.length := by
  induction completed generalizing active with
  | nil => exact Nat.le_refl _
  | cons c cs ih =>
    exact Nat.le_trans (ih _) (List.length_filter_le _ _)

theorem poolTick_active_le (c n : List Nat) (s : PoolState)
    (h : s.active.length ≤ MAX_PARALLEL_DOWNLOADS) :
    (poolTick c n s).active.length ≤ MAX_PARALLEL_DOWNLOADS :=
  promote_active_le _ _ _ (Nat.le_trans (drainCompleted_length_le c s.active) h)

theorem runPool_active_le (trace : List (List Nat × List Nat)) (s : PoolState)
    (h : s.active.length ≤ MAX_PARALLEL_DOWNLOADS) :
    (runPool s trace).active.length ≤ MAX_PARALLEL_DOWNLOADS := by
  induction trace generalizing s with
  | nil => exact h
  | cons step rest ih =>
    obtain ⟨c, n⟩ := step
    exact ih _ (poolTick_active_le c n s h)

/-- C1: starting from an empty download manager, after any sequence of UI-loop
iterations (each draining arbitrary completion events and enqueueing arbitrary
new jobs) the number of active single-file downloads never exceeds
`MAX_PARALLEL_DOWNLOADS`; and the promotion loop always moves exactly the
longest fitting prefix of the pending FIFO into the active set, in order, so
the oldest queued jobs are the ones promoted whenever slots are free. -/
theorem download_pool_bound_and_fifo :
    (∀ trace, (runPool initialPool trace).active.length ≤ MAX_PARALLEL_DOWNLOADS) ∧
      ∀ active pending : List Nat,
        promote MAX_PARALLEL_DOWNLOADS active pending =
          (active ++ pending.take (MAX_PARALLEL_DOWNLOADS - active.length),
            pending.drop (MAX_PARALLEL_DOWNLOADS - active.length)) :=
  ⟨fun trace => runPool_active_le trace initialPool (by decide),
    fun active pending => promote_eq MAX_PARALLEL_DOWNLOADS pending active⟩

theorem satAdd_le_max (a b : Nat) : satAdd a b ≤ U64MAX := Nat.min_le_right _ _

theorem le_satAdd (a b : Nat) (h : a ≤ U64MAX) : a ≤ satAdd a b :=
  Nat.le_min.mpr ⟨Nat.le_add_right a b, h⟩

theorem folderDlLoop_events (ft tb : Nat) (files : List (Nat × Bool)) :
    ∀ fd db, db ≤ U64MAX →
      ∃ ps ok, folderDlLoop ft tb files fd db = ps ++ [DlEvent.completed ok] ∧
        (∀ e ∈ ps, e.isCompleted = false) ∧
        List.Chain' dlMono ((fd, db) :: ps.filterMap DlEvent.progView) := by
  induction files with
  | nil =>
    intro fd db _
    exact ⟨[], true, rfl, by simp, by simp⟩
  | cons f rest ih =>
    intro fd db hdb
    obtain ⟨size, ok⟩ := f
    by_cases hok : ok = true
    · subst hok
      obtain ⟨ps, ok2, heq, hnc, hch⟩ := ih (fd + 1) (satAdd db size) (satAdd_le_max db size)
      refine ⟨DlEvent.progress (fd + 1) ft (satAdd db size) tb :: ps, ok2, ?_, ?_, ?_⟩
      · show (if true then _ else _) = _
        rw [if_pos rfl, heq]
        rfl
      · intro e he
        rcases List.mem_cons.mp he with h | h
        · rw [h]; rfl
        · exact hnc e h
      · show List.Chain' dlMono ((fd, db) :: (fd + 1, satAdd db size) :: ps.filterMap _)
        exact List.chain'_cons.mpr ⟨⟨Nat.le_succ fd, le_satAdd db size hdb⟩, hch⟩
    · rw [Bool.not_eq_true] at hok
      subst hok
      refine ⟨[], false, ?_, by simp, by simp⟩
      show (if false then _ else _) = _
      rw [if_neg (by simp)]
      rfl

/-- C3: every folder-download worker emits exactly one `Completed` event — it
is the final event, whatever the mkdir outcome and the per-file transfer
outcomes — and the (files_done, done_bytes) counters carried by the `Progress`
events before it are monotonically non-decreasing. -/
theorem folder_download_one_completed_monotone (mkdirOk : Bool) (files : List (Nat × Bool)) :
    (∃ ps ok, folderDownloadEvents mkdirOk files = ps ++ [DlEvent.completed ok] ∧
        ∀ e ∈ ps, e.isCompleted = false) ∧
      (folderDownloadEvents mkdirOk files).countP DlEvent.isCompleted = 1 ∧
      List.Chain' dlMono ((folderDownloadEvents mkdirOk files).filterMap DlEvent.progView) := by
  have main :
      ∃ ps ok, folderDownloadEvents mkdirOk files = ps ++ [DlEvent.completed ok] ∧
        (∀ e ∈ ps, e.isCompleted = false) ∧
        List.Chain' dlMono ((folderDownloadEvents mkdirOk files).filterMap DlEvent.progView) := by
    cases mkdirOk with
    | false =>
      refine ⟨[DlEvent.progress 0 files.length 0 ((files.map (fun f => f.1)).sum)],
        false, by simp [folderDownloadEvents], ?_, ?_⟩
      · intro e he
        rw [List.mem_singleton.mp he]
        rfl
      · show List.Chain' dlMono [(0, 0)]
        simp
    | true =>
      obtain ⟨ps, ok, heq, hnc, hch⟩ :=
        folderDlLoop_events files.length ((files.map (fun f => f.1)).sum) files 0 0
          (Nat.zero_le _)
      refine ⟨DlEvent.progress 0 files.length 0 ((files.map (fun f => f.1)).sum) :: ps,
        ok, ?_, ?_, ?_⟩
      · show DlEvent.progress _ _ _ _ :: folderDlLoop _ _ files 0 0 = _
        rw [heq]
        rfl
      · intro e he
        rcases List.mem_cons.mp he with h | h
        · rw [h]; rfl
        · exact hnc e h
      · show List.Chain' dlMono
          ((DlEvent.progress 0 files.length 0 ((files.map (fun f => f.1)).sum) ::
            folderDlLoop _ _ files 0 0).filterMap DlEvent.progView)
        rw [heq]
        show List.Chain' dlMono ((0, 0) :: (ps ++ [DlEvent.completed ok]).filterMap _)
        rw [List.filterMap_append]
        simpa [List.filterMap_cons, DlEvent.progView] using hch
  obtain ⟨ps, ok, heq, hnc, hch⟩ := main
  refine ⟨⟨ps, ok, heq, hnc⟩, ?_, hch⟩
  rw [heq, List.countP_append]
  have hz : ps.countP DlEvent.isCompleted = 0 := by
    rw [List.countP_eq_zero]
    intro e he
    rw [hnc e he]
    exact Bool.false_ne_true
  rw [hz]
  rfl

/-- C3 witness: a two-file folder download whose second transfer fails still
produces a single terminal `Completed` event preceded by completion-free,
monotone `Progress` events. -/
theorem folder_download_one_completed_monotone_witness :
    (∃ ps ok, folderDownloadEvents true [(10, true), (20, false)] =
        ps ++ [DlEvent.completed ok] ∧ ∀ e ∈ ps, e.isCompleted = false) ∧
      (folderDownloadEvents true [(10, true), (20, false)]).countP DlEvent.isCompleted = 1 ∧
      List.Chain' dlMono
        ((folderDownloadEvents true [(10, true), (20, false)]).filterMap DlEvent.progView) :=
  folder_download_one_completed_monotone true [(10, true), (20, false)]

theorem uploadFolderLoop_mkdir_irrelevant (label : String) (ft tb : Nat) (files : List UlFile) :
    ∀ fd db, uploadFolderLoop label ft tb (files.map (fun f => ⟨f.size, true, f.uploadOk⟩)) fd db =
      uploadFolderLoop label ft tb files fd db := by
  induction files with
  | nil => intro fd db; rfl
  | cons f rest ih =>
    intro fd db
    obtain ⟨size, mk, ok⟩ := f
    cases ok with
    | true =>
      show (if true then _ else _) = (if true then _ else _)
      rw [if_pos rfl, if_pos rfl, ih]
    | false =>
      rfl

theorem uploadFolderLoop_all_progress (label : String) (ft tb : Nat) (files : List UlFile) :
    ∀ fd db, (∀ e ∈ uploadFolderLoop label ft tb files fd db, e.isProgress = true) ∧
      (uploadFolderLoop label ft tb files fd db).length =
        (files.takeWhile UlFile.uploadOk).length := by
  induction files with
  | nil => intro fd db; exact ⟨fun e he => absurd he (List.not_mem_nil e), rfl⟩
  | cons f rest ih =>
    intro fd db
    obtain ⟨size, mk, ok⟩ := f
    cases ok with
    | true =>
      obtain ⟨ihp, ihl⟩ := ih (fd + 1) (satAdd db size)
      constructor
      · intro e he
        rw [show uploadFolderLoop label ft tb (⟨size, mk, true⟩ :: rest) fd db =
            UlEvent.uploadProgress label (fd + 1) ft (satAdd db size) tb ::
              uploadFolderLoop label ft tb rest (fd + 1) (satAdd db size) from rfl] at he
        rcases List.mem_cons.mp he with h | h
        · rw [h]; rfl
        · exact ihp e h
      · show (UlEvent.uploadProgress label (fd + 1) ft (satAdd db size) tb ::
            uploadFolderLoop label ft tb rest (fd + 1) (satAdd db size)).length = _
        rw [List.length_cons, ihl]
        show _ = (List.takeWhile _ (⟨size, mk, true⟩ :: rest)).length
        rw [show List.takeWhile UlFile.uploadOk (⟨size, mk, true⟩ :: rest) =
            ⟨size, mk, true⟩ :: List.takeWhile UlFile.uploadOk rest from rfl]
        rfl
    | false =>
      refine ⟨?_, rfl⟩
      intro e he
      rw [show uploadFolderLoop label ft tb (⟨size, mk, false⟩ :: rest) fd db = [] from rfl] at he
      exact absurd he (List.not_mem_nil e)

/-- C4 counterexample: with the root and per-parent `mkdir -p` calls all
failing, a two-file folder upload still uploads both files (the progress
events reach files_done = 2, nothing is aborted); and with a failed first
upload the job ends with a bare `UploadCompleted` carrying only the folder
name — no `Completed(Err)`-style event exists to surface the failure. -/
theorem upload_mkdir_failure_counterexample :
    uploadFolderEvents "data" false [⟨5, false, true⟩, ⟨7, false, true⟩] =
      [UlEvent.uploadProgress "Folder: data" 1 2 5 12,
        UlEvent.uploadProgress "Folder: data" 2 2 12 12,
        UlEvent.uploadCompleted "data"] ∧
      uploadFolderEvents "data" true [⟨5, true, false⟩, ⟨7, true, true⟩] =
        [UlEvent.uploadCompleted "data"] := by
  constructor
  · decide
  · decide

/-- C4 (amended): the results of the remote directory-creation calls of a
folder upload are discarded (`let _ = ssh_mkdir_remote(...)`) and never abort
anything — the event stream is identical whether they succeed or fail; what
does abort the remaining files is a failed per-file `scp` upload (one progress
event per file of the longest successful prefix); and the worker always ends
with exactly one `UploadCompleted` event which carries only the file name —
the `SftpEvent` type has no error payload at all. -/
theorem upload_folder_events (name : String) (m : Bool) (files : List UlFile) :
    uploadFolderEvents name m files =
      uploadFolderEvents name true (files.map (fun f => ⟨f.size, true, f.uploadOk⟩)) ∧
      (uploadFolderEvents name m files).countP UlEvent.isCompleted = 1 ∧
      (uploadFolderEvents name m files).countP UlEvent.isProgress =
        (files.takeWhile UlFile.uploadOk).length ∧
      ∀ e ∈ uploadFolderEvents name m files,
        e.isProgress = true ∨ e = UlEvent.uploadCompleted name := by
  obtain ⟨hprog, hlen⟩ :=
    uploadFolderLoop_all_progress ("Folder: " ++ name) files.length
      ((files.map UlFile.size).sum) files 0 0
  have hloop := uploadFolderLoop_mkdir_irrelevant ("Folder: " ++ name) files.length
    ((files.map UlFile.size).sum) files 0 0
  refine ⟨?_, ?_, ?_, ?_⟩
  · show uploadFolderLoop _ _ _ files 0 0 ++ _ =
      uploadFolderLoop _ _ _ (files.map (fun f => ⟨f.size, true, f.uploadOk⟩)) 0 0 ++ _
    rw [show (files.map (fun f => (⟨f.size, true, f.uploadOk⟩ : UlFile))).length =
        files.length from List.length_map files _]
    rw [show ((files.map (fun f => (⟨f.size, true, f.uploadOk⟩ : UlFile))).map UlFile.size).sum =
        (files.map UlFile.size).sum from by rw [List.map_map]; rfl]
    rw [hloop]
  · show (uploadFolderLoop _ _ _ files 0 0 ++ [UlEvent.uploadCompleted name]).countP _ = 1
    rw [List.countP_append]
    have hz : (uploadFolderLoop ("Folder: " ++ name) files.length
        ((files.map UlFile.size).sum) files 0 0).countP UlEvent.isCompleted = 0 := by
      rw [List.countP_eq_zero]
      intro e he
      rw [show e.isCompleted = false from by
        have := hprog e he
        cases e with
        | uploadProgress a b c d f => rfl
        | uploadCompleted a => exact absurd this (by simp [UlEvent.isProgress])]
      exact Bool.false_ne_true
    rw [hz]
    rfl
  · show (uploadFolderLoop _ _ _ files 0 0 ++ [UlEvent.uploadCompleted name]).countP _ = _
    rw [List.countP_append]
    have hall : (uploadFolderLoop ("Folder: " ++ name) files.length
        ((files.map UlFile.size).sum) files 0 0).countP UlEvent.isProgress =
        (uploadFolderLoop ("Folder: " ++ name) files.length
          ((files.map UlFile.size).sum) files 0 0).length := by
      rw [List.countP_eq_length]
      exact hprog
    rw [hall, hlen]
    rfl
  · intro e he
    rcases List.mem_append.mp he with h | h
    · exact Or.inl (hprog e h)
    · exact Or.inr (List.mem_singleton.mp h)

/-- C4 witness: instantiation at a concrete folder job whose second upload
fails: the events are independent of the mkdir outcomes, exactly one
completion is emitted, and one progress event is emitted for the single
successful leading upload. -/
theorem upload_folder_events_witness :
    uploadFolderEvents "docs" false [⟨3, false, true⟩, ⟨4, true, false⟩] =
      uploadFolderEvents "docs" true
        (([⟨3, false, true⟩, ⟨4, true, false⟩] : List UlFile).map
          (fun f => (⟨f.size, true, f.uploadOk⟩ : UlFile))) ∧
      (uploadFolderEvents "docs" false [⟨3, false, true⟩, ⟨4, true, false⟩]).countP
          UlEvent.isCompleted = 1 ∧
      (uploadFolderEvents "docs" false [⟨3, false, true⟩, ⟨4, true, false⟩]).countP
          UlEvent.isProgress =
        ([(⟨3, false, true⟩ : UlFile), ⟨4, true, false⟩].takeWhile UlFile.uploadOk).length ∧
      ∀ e ∈ uploadFolderEvents "docs" false [⟨3, false, true⟩, ⟨4, true, false⟩],
        e.isProgress = true ∨ e = UlEvent.uploadCompleted "docs" :=
  upload_folder_events "docs" false [⟨3, false, true⟩, ⟨4, true, false⟩]

/-- C8 counterexample: the local-panel refresh performed when a download
completes replaces the entry list without touching `selected`; from the
legitimate state with three entries and `selected = 2`, refreshing down to a
single entry leaves `selected = 2`, outside `[0, len(entries))` although the
list is non-empty. -/
theorem download_refresh_selection_counterexample :
    (downloadRefresh [⟨"a", false⟩]
        ⟨[⟨"a", false⟩, ⟨"b", false⟩, ⟨"c", false⟩], 2⟩).entries ≠ [] ∧
      ¬ (downloadRefresh [⟨"a", false⟩]
            ⟨[⟨"a", false⟩, ⟨"b", false⟩, ⟨"c", false⟩], 2⟩).selected <
          (downloadRefresh [⟨"a", false⟩]
              ⟨[⟨"a", false⟩, ⟨"b", false⟩, ⟨"c", false⟩], 2⟩).entries.length := by
  constructor
  · decide
  · decide

/-- C8 (amended): the selection stays in `[0, len(entries))` under the
navigation and filter mutations — `Up` preserves the invariant, `Down` and
every entry-list replacement that resets the selection to 0 establish it
outright — but the event-driven local refresh on download completion leaves
`selected` unchanged (so it can fall out of range); the index actually handed
to the renderer is clamped into range whenever the list is non-empty. -/
theorem panel_selection_clamped (p : Panel) (l : List FileEntry) :
    (p.selInRange → (keyUp p).selInRange) ∧
      (keyDown p).selInRange ∧
      (navigateSet l p).selInRange ∧
      (downloadRefresh l p).selected = p.selected ∧
      (p.entries ≠ [] → ∃ i, renderIndex p = some i ∧ i < p.entries.length) := by
  refine ⟨?_, ?_, ?_, rfl, ?_⟩
  · intro hp
    unfold keyUp
    by_cases h0 : 0 < p.selected
    · rw [if_pos h0]
      intro hne
      have h2 := hp hne
      show p.selected - 1 < p.entries.length
      omega
    · rw [if_neg h0]
      exact hp
  · intro hne
    unfold keyDown at hne ⊢
    by_cases he : p.entries = []
    · rw [if_pos he] at hne ⊢
      exact absurd he hne
    · rw [if_neg he] at hne ⊢
      show min (p.selected + 1) (p.entries.length - 1) < p.entries.length
      have : p.entries.length ≠ 0 := fun h => he (List.eq_nil_of_length_eq_zero h)
      omega
  · intro hne
    show 0 < (navigateSet l p).entries.length
    have : (navigateSet l p).entries = l := rfl
    rw [this] at hne ⊢
    exact List.length_pos.mpr hne
  · intro hne
    unfold renderIndex
    rw [if_neg hne]
    refine ⟨min p.selected (p.entries.length - 1), rfl, ?_⟩
    have : p.entries.length ≠ 0 := fun h => hne (List.eq_nil_of_length_eq_zero h)
    omega

/-- C8 witness: from the in-range state with two entries and `selected = 1`,
pressing `Up` keeps the selection inside `[0, len(entries))`. -/
theorem panel_selection_clamped_witness :
    (keyUp ⟨[⟨"a", false⟩, ⟨"b", false⟩], 1⟩).selected <
      (keyUp ⟨[⟨"a", false⟩, ⟨"b", false⟩], 1⟩).entries.length :=
  (panel_selection_clamped ⟨[⟨"a", false⟩, ⟨"b", false⟩], 1⟩ []).1
    (fun _ => by decide) (by decide)

theorem probeLoop_spec (present : List String) (base suffix : String) :
    ∀ (fuel n : Nat) (r : String), probeLoop present base suffix fuel n = some r →
      ∃ k, n ≤ k ∧ r = base ++ " (" ++ toString k ++ ")" ++ suffix ∧ r ∉ present ∧
        ∀ j, n ≤ j → j < k → (base ++ " (" ++ toString j ++ ")" ++ suffix) ∈ present := by
  intro fuel
  induction fuel with
  | zero =>
    intro n r h
    exact absurd h (by rw [show probeLoop present base suffix 0 n = none from rfl]; exact
      fun hx => nomatch hx)
  | succ fuel ih =>
    intro n r h
    rw [show probeLoop present base suffix (fuel + 1) n =
        (if (base ++ " (" ++ toString n ++ ")" ++ suffix) ∈ present then
          probeLoop present base suffix fuel (n + 1)
        else some (base ++ " (" ++ toString n ++ ")" ++ suffix)) from rfl] at h
    by_cases hmem : (base ++ " (" ++ toString n ++ ")" ++ suffix) ∈ present
    · rw [if_pos hmem] at h
      obtain ⟨k, hk, hr, hnot, hall⟩ := ih (n + 1) r h
      refine ⟨k, by omega, hr, hnot, ?_⟩
      intro j hj hjk
      rcases Nat.eq_or_lt_of_le hj with hje | hjl
      · rw [← hje]
        exact hmem
      · exact hall j hjl hjk
    · rw [if_neg hmem] at h
      injection h with h
      subst h
      exact ⟨n, Nat.le_refl n, rfl, hmem, fun j hj hjk => absurd (Nat.lt_of_le_of_lt hj hjk)
        (Nat.lt_irrefl n)⟩

/-- C6: whenever `unique_local_path` returns a path, that path is not among
the names existing in the directory at call time, and it is the first free
candidate in the probe order derived from splitting the file name at its
first dot: the plain `base+suffix` first, then `base (1)+suffix`,
`base (2)+suffix`, …, every earlier candidate being occupied. -/
theorem unique_local_path_first_free (present : List String) (fuel : Nat)
    (file_name r : String) (h : unique_local_path present fuel file_name = some r) :
    r ∉ present ∧ ∃ k, r = candName file_name k ∧
      ∀ j, j < k → candName file_name j ∈ present := by
  rw [show unique_local_path present fuel file_name =
      (if (splitBase file_name ++ splitSuffix file_name) ∈ present then
        probeLoop present (splitBase file_name) (splitSuffix file_name) fuel 1
      else some (splitBase file_name ++ splitSuffix file_name)) from rfl] at h
  by_cases h0 : (splitBase file_name ++ splitSuffix file_name) ∈ present
  · rw [if_pos h0] at h
    obtain ⟨k, hk, hr, hnot, hall⟩ := probeLoop_spec present _ _ fuel 1 r h
    refine ⟨hnot, k, ?_, ?_⟩
    · cases k with
      | zero => exact absurd hk (by omega)
      | succ m => exact hr
    · intro j hj
      cases j with
      | zero => exact h0
      | succ m => exact hall (m + 1) (by omega) hj
  · rw [if_neg h0] at h
    injection h with h
    subst h
    exact ⟨h0, 0, rfl, fun j hj => absurd hj (Nat.not_lt_zero j)⟩

/-- C6 witness: with `photo.png`, `photo (1).png` and `photo (2).png` already
present, `unique_local_path` returns the `(3)` variant: it is unused and every
earlier candidate is occupied. -/
theorem unique_local_path_first_free_witness :
    ("photo (3).png" : String) ∉ ["photo.png", "photo (1).png", "photo (2).png"] ∧
      ∃ k, ("photo (3).png" : String) = candName "photo.png" k ∧
        ∀ j, j < k → candName "photo.png" j ∈ ["photo.png", "photo (1).png", "photo (2).png"] :=
  unique_local_path_first_free ["photo.png", "photo (1).png", "photo (2).png"] 10
    "photo.png" "photo (3).png" (by decide)

theorem lexLe_total (x y : List Char) : (lexLe x y || lexLe y x) = true := by
  induction x generalizing y with
  | nil => simp [lexLe]
  | cons a as ih =>
    cases y with
    | nil => simp [lexLe]
    | cons b bs =>
      by_cases hab : a = b
      · subst hab
        rw [show lexLe (a :: as) (a :: bs) = lexLe as bs from by rw [lexLe, if_pos rfl]]
        rw [show lexLe (a :: bs) (a :: as) = lexLe bs as from by rw [lexLe, if_pos rfl]]
        exact ih bs
      · rw [show lexLe (a :: as) (b :: bs) = decide (a < b) from by rw [lexLe, if_neg hab]]
        rw [show lexLe (b :: bs) (a :: as) = decide (b < a) from by
          rw [lexLe, if_neg (Ne.symm hab)]]
        rcases lt_or_gt_of_ne hab with h | h
        · simp [h]
        · simp [h]

theorem lexLe_trans (x y z : List Char) (hxy : lexLe x y = true) (hyz : lexLe y z = true) :
    lexLe x z = true := by
  induction x generalizing y z with
  | nil => rfl
  | cons a as ih =>
    cases y with
    | nil => exact absurd hxy (by rw [lexLe]; exact Bool.false_ne_true)
    | cons b bs =>
      cases z with
      | nil => exact absurd hyz (by rw [lexLe]; exact Bool.false_ne_true)
      | cons c cs =>
        by_cases hab : a = b
        · subst hab
          rw [show lexLe (a :: as) (a :: bs) = lexLe as bs from by rw [lexLe, if_pos rfl]] at hxy
          by_cases hbc : a = c
          · subst hbc
            rw [show lexLe (a :: bs) (a :: cs) = lexLe bs cs from by
              rw [lexLe, if_pos rfl]] at hyz
            rw [show lexLe (a :: as) (a :: cs) = lexLe as cs from by rw [lexLe, if_pos rfl]]
            exact ih bs cs hxy hyz
          · rw [show lexLe (a :: bs) (c :: cs) = decide (a < c) from by
              rw [lexLe, if_neg hbc]] at hyz
            rw [show lexLe (a :: as) (c :: cs) = decide (a < c) from by rw [lexLe, if_neg hbc]]
            exact hyz
        · rw [show lexLe (a :: as) (b :: bs) = decide (a < b) from by
            rw [lexLe, if_neg hab]] at hxy
          have hlt : a < b := of_decide_eq_true hxy
          by_cases hbc : b = c
          · subst hbc
            rw [show lexLe (a :: as) (b :: cs) = decide (a < b) from by rw [lexLe, if_neg hab]]
            exact hxy
          · rw [show lexLe (b :: bs) (c :: cs) = decide (b < c) from by
              rw [lexLe, if_neg hbc]] at hyz
            have hltbc : b < c := of_decide_eq_true hyz
            have hac : a < c := lt_trans hlt hltbc
            rw [show lexLe (a :: as) (c :: cs) = decide (a < c) from by
              rw [lexLe, if_neg (ne_of_lt hac)]]
            exact decide_eq_true hac

theorem entryLe_total (a b : FileEntry) : (entryLe a b || entryLe b a) = true := by
  unfold entryLe
  cases ha : a.is_dir <;> cases hb : b.is_dir
  · exact lexLe_total _ _
  · rfl
  · rfl
  · exact lexLe_total _ _

theorem entryLe_trans (a b c : FileEntry) (hab : entryLe a b = true) (hbc : entryLe b c = true) :
    entryLe a c = true := by
  unfold entryLe at hab hbc ⊢
  cases ha : a.is_dir <;> cases hb : b.is_dir <;> cases hc : c.is_dir <;>
    rw [ha, hb] at hab <;> rw [hb, hc] at hbc <;> first
      | rfl
      | exact absurd hab Bool.false_ne_true
      | exact absurd hbc Bool.false_ne_true
      | exact lexLe_trans _ _ _ hab hbc

theorem sortEntries_pairwise (l : List FileEntry) :
    (sortEntries l).Pairwise (fun a b => entryLe a b = true) :=
  @List.sorted_mergeSort FileEntry entryLe
    (fun a b c hab hbc => entryLe_trans a b c hab hbc)
    (fun a b => entryLe_total a b) l

theorem entryLe_imp (a b : FileEntry) (h : entryLe a b = true) :
    (b.is_dir = true → a.is_dir = true) ∧
      (a.is_dir = b.is_dir → lexLe (toLowerL a.name.data) (toLowerL b.name.data) = true) := by
  unfold entryLe at h
  cases ha : a.is_dir <;> cases hb : b.is_dir <;> rw [ha, hb] at h
  · exact ⟨(fun hx => nomatch hx), fun _ => h⟩
  · exact absurd h Bool.false_ne_true
  · exact ⟨(fun _ => rfl), fun hx => nomatch hx⟩
  · exact ⟨fun _ => rfl, fun _ => h⟩

theorem dirsFirstSorted_sortEntries (l : List FileEntry) :
    dirsFirstSorted (sortEntries l) :=
  (sortEntries_pairwise l).imp (fun h => entryLe_imp _ _ h)

/-- C7: every entry list produced by the local listing (`read_local_dir`) or
returned with `Ok` by the remote listing (`ssh_list_remote_dir`) has all
directories before all files and, within each of the two groups, entries in
case-insensitive name order. -/
theorem listings_sorted :
    (∀ raw : List FileEntry, dirsFirstSorted (read_local_dir raw)) ∧
      ∀ (tr : TransportResult) (l : List FileEntry),
        ssh_list_remote_dir tr = Except.ok l → dirsFirstSorted l := by
  refine ⟨fun raw => dirsFirstSorted_sortEntries raw, ?_⟩
  intro tr l h
  cases tr with
  | err msg => exact absurd h (fun hx => nomatch hx)
  | exit success out =>
    cases success with
    | false =>
      injection h with h
      rw [← h]
      exact List.Pairwise.nil
    | true =>
      injection h with h
      rw [← h]
      exact dirsFirstSorted_sortEntries _

/-- C7 witness: the listing returned for a failed remote `ls` (the empty one)
satisfies the directories-first, case-insensitive ordering. -/
theorem listings_sorted_witness : dirsFirstSorted [] :=
  listings_sorted.2 (TransportResult.exit false "") [] rfl

end Sshm
